import Mathlib

/-!
Shallow embedding of `ssm/util.py`: the label-alignment subsystem
(`compute_state_overlap`, `find_permutation`), the Adam optimizer with a
convergence check (`adam_with_convergence_check`), and the random-rotation
generator (`random_rotation`).

Conventions of the embedding:
* numpy integer arrays become `List ℕ` (the asserts `z.min() >= 0` and
  `z.dtype == int` are absorbed by the type); real arrays become `List ℚ`,
  with `np.sqrt` passed in as an explicit function parameter;
* a Python `assert` failure (or a numpy `ValueError` such as `min` of an
  empty array) is modelled by returning `none`;
* `scipy.optimize.linear_sum_assignment`, an external library dependency,
  is modelled by its documented contract: it returns an assignment of the
  rows to distinct columns of the cost matrix minimizing the total cost
  (here: maximizing total overlap, since the code negates the matrix),
  realized as the first maximizer in a deterministic enumeration of all
  injections;
* randomness (`np.random.rand`, the `Q` factor of the QR decomposition of a
  Gaussian matrix) is modelled by passing the sampled values as arguments.
-/

namespace SsmUtil

/-! ### Label sequences and the overlap matrix -/

/-- `z.max()` of a nonempty numpy integer array, as a fold (`0` on `[]`,
but the functions below return `none` on empty input, matching the
`ValueError` numpy raises there). -/
def listMax (z : List ℕ) : ℕ := z.foldr max 0

/-- Resolution of the optional `K1`/`K2` arguments:
`K1 = z1.max() + 1 if K1 is None else K1`. -/
def resolveK (z : List ℕ) : Option ℕ → ℕ
  | none => listMax z + 1
  | some k => k

/-- `np.sum((z1 == k1) & (z2 == k2))` over the zipped pair list. -/
def overlapEntry (l : List (ℕ × ℕ)) (k1 k2 : ℕ) : ℕ :=
  l.countP (fun p => p.1 == k1 && p.2 == k2)

/-- The `K1 × K2` overlap matrix built from the zipped pair list:
`overlap[k1, k2] = np.sum((z1 == k1) & (z2 == k2))`. -/
def overlapMatrix (K1 K2 : ℕ) (l : List (ℕ × ℕ)) : List (List ℕ) :=
  (List.range K1).map (fun k1 =>
    (List.range K2).map (fun k2 => overlapEntry l k1 k2))

/-- `compute_state_overlap(z1, z2, K1=None, K2=None)`.  Returns `none` when
the shape assert fails or when the arrays are empty (numpy raises
`ValueError` evaluating `z1.min()` on an empty array). -/
def compute_state_overlap (z1 z2 : List ℕ) (K1 K2 : Option ℕ) :
    Option (List (List ℕ)) :=
  if z1.length = z2.length ∧ z1 ≠ [] then
    some (overlapMatrix (resolveK z1 K1) (resolveK z2 K2) (z1.zip z2))
  else
    none

/-! ### The assignment solver, modelled from its contract -/

/-- All injections from `{0, …, n-1}` into the available column list, as
lists `s` with `s.get i` the column matched to row `i`; enumerated in
lexicographic order of the choices. -/
def allInjections : ℕ → List ℕ → List (List ℕ)
  | 0, _ => [[]]
  | n + 1, avail =>
      avail.flatMap (fun c =>
        (allInjections n (avail.erase c)).map (fun rest => c :: rest))

/-- Total overlap collected by an assignment that matches row `i`, row
`i+1`, … to the successive entries of `s`. -/
def permScore (ov : List (List ℕ)) : ℕ → List ℕ → ℕ
  | _, [] => 0
  | i, c :: cs => (ov.getD i []).getD c 0 + permScore ov (i + 1) cs

/-- Keep-first argmax: replaces the current best only on a strict
improvement, so the first maximizer in the list wins. -/
def pickBestAux (score : List ℕ → ℕ) : List ℕ → List (List ℕ) → List ℕ
  | best, [] => best
  | best, c :: cs =>
      if score best < score c then pickBestAux score c cs
      else pickBestAux score best cs

/-- First maximizer of `score` in a candidate list (`[]` if there are no
candidates). -/
def pickBest (score : List ℕ → ℕ) : List (List ℕ) → List ℕ
  | [] => []
  | x :: xs => pickBestAux score x xs

/-- Modelled from the spec: `scipy.optimize.linear_sum_assignment` on the
negated overlap matrix — an external dependency whose contract is to return
an optimal assignment (here a maximum-total-overlap matching of the `K1`
rows to distinct columns among `K2`).  The row indices it returns are
`arange(K1)` whenever `K1 ≤ K2`, so only the column list is modelled.
Ties are broken deterministically in favor of the lexicographically first
assignment. -/
def linear_sum_assignment_max (ov : List (List ℕ)) (K1 K2 : ℕ) : List ℕ :=
  pickBest (permScore ov 0) (allInjections K1 (List.range K2))

/-- `find_permutation(z1, z2, K1=None, K2=None)`.  `none` models a failed
assert (in `compute_state_overlap`, or `K1 <= K2` here).  `overlap.shape`
is `(resolveK z1 K1, resolveK z2 K2)` by construction, so the shapes are
read off the resolved bounds directly. -/
def find_permutation (z1 z2 : List ℕ) (K1 K2 : Option ℕ) : Option (List ℕ) :=
  match compute_state_overlap z1 z2 K1 K2 with
  | none => none
  | some ov =>
      let k1 := resolveK z1 K1
      let k2 := resolveK z2 K2
      if k1 ≤ k2 then
        let perm := linear_sum_assignment_max ov k1 k2
        -- `unused = set(np.arange(K2)) - set(perm)`, in ascending order
        let unused := (List.range k2).filter (fun c => decide (c ∉ perm))
        some (perm ++ unused)
      else
        none

/-- Total of all entries of a list matrix (`np.sum(overlap)`). -/
def totalSum (ov : List (List ℕ)) : ℕ := (ov.map List.sum).sum

/-! ### Adam with convergence check

The source body of `adam_with_convergence_check` reads the loop bound from
the name `num_iters`, which is neither one of its parameters nor defined
anywhere in the module, so the embedding takes the intended bound as an
explicit argument `num_iters` (as in the upstream `autograd` optimizer the
function is adapted from); see the theorems on the iteration bound.
`np.sqrt` is an explicit function parameter, and the optional `callback`
is omitted: the code only ever reads from it, never lets it touch `x`,
`m`, `v` or `i`. -/

/-- The scalar hyperparameters of `adam_with_convergence_check`, together
with the square-root routine it applies elementwise. -/
structure AdamConfig where
  step_size : ℚ
  b1 : ℚ
  b2 : ℚ
  eps : ℚ
  tol : ℚ
  sqrtFn : ℚ → ℚ

/-- `np.mean(abs(dx))` (Lean's `/ 0 = 0` stands in for numpy's `nan` on an
empty array; the loop state never has empty `dx` unless `x` is empty). -/
def meanAbs (dx : List ℚ) : ℚ := (dx.map abs).sum / dx.length

/-- The loop state `(x, m, v)`. -/
structure AdamState where
  x : List ℚ
  m : List ℚ
  v : List ℚ

/-- One iteration of the loop body at index `i`: returns the updated state
and the step `dx` that the convergence check inspects. -/
def adamStep (cfg : AdamConfig) (grad : List ℚ → ℕ → List ℚ) (i : ℕ)
    (s : AdamState) : AdamState × List ℚ :=
  let g := grad s.x i
  let m := (g.zip s.m).map (fun p => (1 - cfg.b1) * p.1 + cfg.b1 * p.2)
  let v := (g.zip s.v).map (fun p => (1 - cfg.b2) * p.1 ^ 2 + cfg.b2 * p.2)
  let mhat := m.map (fun a => a / (1 - cfg.b1 ^ (i + 1)))
  let vhat := v.map (fun a => a / (1 - cfg.b2 ^ (i + 1)))
  let dx := (mhat.zip vhat).map
    (fun p => -cfg.step_size * p.1 / (cfg.sqrtFn p.2 + cfg.eps))
  let x := (s.x.zip dx).map (fun p => p.1 + p.2)
  (⟨x, m, v⟩, dx)

/-- `for i in range(num_iters): … if np.mean(abs(dx)) < tol: break`,
as structural recursion on the remaining iteration count. -/
def adamLoop (cfg : AdamConfig) (grad : List ℚ → ℕ → List ℚ) :
    ℕ → ℕ → AdamState → AdamState
  | 0, _, s => s
  | rem + 1, i, s =>
      let sdx := adamStep cfg grad i s
      if meanAbs sdx.2 < cfg.tol then sdx.1
      else adamLoop cfg grad rem (i + 1) sdx.1

/-- Number of loop iterations actually executed (each early exit still
completes its iteration). -/
def adamLoopCount (cfg : AdamConfig) (grad : List ℚ → ℕ → List ℚ) :
    ℕ → ℕ → AdamState → ℕ
  | 0, _, _ => 0
  | rem + 1, i, s =>
      let sdx := adamStep cfg grad i s
      if meanAbs sdx.2 < cfg.tol then 1
      else 1 + adamLoopCount cfg grad rem (i + 1) sdx.1

/-- `adam_with_convergence_check(grad, x, …)` with the loop bound passed
explicitly: `m` and `v` start as zero vectors of `x`'s length and the final
`x` is returned. -/
def adam_with_convergence_check (cfg : AdamConfig)
    (grad : List ℚ → ℕ → List ℚ) (x : List ℚ) (num_iters : ℕ) : List ℚ :=
  (adamLoop cfg grad num_iters 0
    ⟨x, List.replicate x.length 0, List.replicate x.length 0⟩).x

/-- Iterations performed by a run of `adam_with_convergence_check`. -/
def adamIterCount (cfg : AdamConfig) (grad : List ℚ → ℕ → List ℚ)
    (x : List ℚ) (num_iters : ℕ) : ℕ :=
  adamLoopCount cfg grad num_iters 0
    ⟨x, List.replicate x.length 0, List.replicate x.length 0⟩

/-! ### Random rotation

`random_rotation(n, theta)` with `n ≥ 2` builds the 2×2 rotation
`rot = [[cos θ, -sin θ], [sin θ, cos θ]]`, writes it into the top-left
corner of an `n×n` ZERO matrix `out`, takes the `Q` factor of the QR
decomposition of a Gaussian matrix, and returns `q @ out @ q.T`.
The embedding works over `ℚ` with `c`, `s` standing for `cos θ`, `sin θ`
(constrained by `c² + s² = 1` where a theorem needs it) and `q` standing
for the sampled orthogonal factor.  `n = 1` returns `rand() * eye(1)`,
with the sampled scalar passed in. -/

/-- `out = np.zeros((n, n)); out[:2, :2] = rot`. -/
def rotBlock (n : ℕ) (c s : ℚ) : Matrix (Fin n) (Fin n) ℚ :=
  Matrix.of fun i j =>
    if (i : ℕ) = 0 ∧ (j : ℕ) = 0 then c
    else if (i : ℕ) = 0 ∧ (j : ℕ) = 1 then -s
    else if (i : ℕ) = 1 ∧ (j : ℕ) = 0 then s
    else if (i : ℕ) = 1 ∧ (j : ℕ) = 1 then c
    else 0

/-- `random_rotation(n, theta)` for `n ≥ 2`: `q.dot(out).dot(q.T)`. -/
def random_rotation (n : ℕ) (c s : ℚ) (q : Matrix (Fin n) (Fin n) ℚ) :
    Matrix (Fin n) (Fin n) ℚ :=
  q * rotBlock n c s * q.transpose

/-- The `n == 1` branch: `np.random.rand() * np.eye(1)` with the sampled
scalar `r ∈ [0, 1)` passed in. -/
def random_rotation_one (r : ℚ) : Matrix (Fin 1) (Fin 1) ℚ :=
  r • (1 : Matrix (Fin 1) (Fin 1) ℚ)

/-! ### Lemmas on the overlap matrix -/

lemma sum_map_range (n : ℕ) (f : ℕ → ℕ) :
    ((List.range n).map f).sum = ∑ i ∈ Finset.range n, f i := by
  induction n with
  | zero => simp
  | succ n ih => rw [List.sum_range_succ, ih, Finset.sum_range_succ]

lemma totalSum_eq_double_sum (K1 K2 : ℕ) (l : List (ℕ × ℕ)) :
    totalSum (overlapMatrix K1 K2 l)
      = ∑ k1 ∈ Finset.range K1, ∑ k2 ∈ Finset.range K2, overlapEntry l k1 k2 := by
  unfold totalSum overlapMatrix
  rw [List.map_map]
  rw [sum_map_range]
  refine Finset.sum_congr rfl fun k1 _ => ?_
  simp only [Function.comp]
  exact sum_map_range K2 fun k2 => overlapEntry l k1 k2

lemma overlapEntry_nil (k1 k2 : ℕ) : overlapEntry [] k1 k2 = 0 := rfl

lemma overlapEntry_cons (p : ℕ × ℕ) (l : List (ℕ × ℕ)) (k1 k2 : ℕ) :
    overlapEntry (p :: l) k1 k2
      = overlapEntry l k1 k2 + (if p.1 = k1 ∧ p.2 = k2 then 1 else 0) := by
  unfold overlapEntry
  rw [List.countP_cons]
  congr 1
  by_cases h1 : p.1 = k1 <;> by_cases h2 : p.2 = k2 <;> simp [h1, h2]

/-- Total mass of the overlap matrix: exactly the positions whose label
pair lies inside the `K1 × K2` window are counted, once each. -/
lemma totalSum_overlapMatrix (K1 K2 : ℕ) (l : List (ℕ × ℕ)) :
    totalSum (overlapMatrix K1 K2 l)
      = l.countP (fun p => decide (p.1 < K1) && decide (p.2 < K2)) := by
  rw [totalSum_eq_double_sum]
  induction l with
  | nil => simp [overlapEntry_nil]
  | cons p l ih =>
      have hsplit :
          (∑ k1 ∈ Finset.range K1, ∑ k2 ∈ Finset.range K2,
              overlapEntry (p :: l) k1 k2)
            = (∑ k1 ∈ Finset.range K1, ∑ k2 ∈ Finset.range K2,
                overlapEntry l k1 k2)
              + ∑ k1 ∈ Finset.range K1, ∑ k2 ∈ Finset.range K2,
                  (if p.1 = k1 ∧ p.2 = k2 then 1 else 0) := by
        rw [← Finset.sum_add_distrib]
        refine Finset.sum_congr rfl fun k1 _ => ?_
        rw [← Finset.sum_add_distrib]
        refine Finset.sum_congr rfl fun k2 _ => ?_
        exact overlapEntry_cons p l k1 k2
      have hpoint :
          (∑ k1 ∈ Finset.range K1, ∑ k2 ∈ Finset.range K2,
              (if p.1 = k1 ∧ p.2 = k2 then 1 else 0))
            = if p.1 < K1 ∧ p.2 < K2 then 1 else 0 := by
        have hrow : ∀ k1 ∈ Finset.range K1,
            (∑ k2 ∈ Finset.range K2, (if p.1 = k1 ∧ p.2 = k2 then 1 else 0))
              = if p.1 = k1 ∧ p.2 < K2 then 1 else 0 := by
          intro k1 _
          by_cases h1 : p.1 = k1
          · simp only [h1, true_and]
            rw [Finset.sum_ite_eq]
            simp [Finset.mem_range]
          · simp [h1]
        rw [Finset.sum_congr rfl hrow]
        by_cases h2 : p.2 < K2
        · simp only [h2, and_true]
          rw [Finset.sum_ite_eq]
          simp [Finset.mem_range]
        · simp [h2]
      rw [hsplit, ih, hpoint, List.countP_cons]
      by_cases h1 : p.1 < K1 <;> by_cases h2 : p.2 < K2 <;> simp [h1, h2]

lemma listMax_mem : ∀ {z : List ℕ}, z ≠ [] → listMax z ∈ z := by
  intro z
  induction z with
  | nil => intro h; exact absurd rfl h
  | cons a l ih =>
      intro _
      show max a (listMax l) ∈ a :: l
      cases l with
      | nil => simp [listMax]
      | cons b t =>
          rcases max_choice a (listMax (b :: t)) with h | h
          · rw [h]; exact List.mem_cons_self a _
          · rw [h]; exact List.mem_cons_of_mem a (ih (by simp))

lemma le_listMax {z : List ℕ} : ∀ a ∈ z, a ≤ listMax z := by
  induction z with
  | nil => intro a ha; cases ha
  | cons b l ih =>
      intro a ha
      rcases List.mem_cons.mp ha with rfl | ha
      · exact le_max_left _ _
      · exact le_trans (ih a ha) (le_max_right _ _)

lemma overlapMatrix_getD {K1 K2 k1 k2 : ℕ} (l : List (ℕ × ℕ))
    (h1 : k1 < K1) (h2 : k2 < K2) :
    ((overlapMatrix K1 K2 l).getD k1 []).getD k2 0 = overlapEntry l k1 k2 := by
  unfold overlapMatrix
  simp [List.getD_eq_getElem?_getD, List.getElem?_range, h1, h2]

lemma overlapEntry_eq_position_count :
    ∀ (z1 z2 : List ℕ), z1.length = z2.length → ∀ k1 k2 : ℕ,
      overlapEntry (z1.zip z2) k1 k2
        = (List.range z1.length).countP
            (fun t => z1.getD t 0 == k1 && z2.getD t 0 == k2) := by
  intro z1
  induction z1 with
  | nil => intro z2 _ k1 k2; simp [overlapEntry]
  | cons a z1' ih =>
      intro z2 hlen k1 k2
      cases z2 with
      | nil => simp at hlen
      | cons b z2' =>
          have hlen' : z1'.length = z2'.length := by simpa using hlen
          show overlapEntry ((a, b) :: z1'.zip z2') k1 k2 = _
          rw [overlapEntry_cons]
          rw [ih z2' hlen' k1 k2]
          rw [List.length_cons, List.range_succ_eq_map, List.countP_cons]
          rw [List.countP_map]
          have hc := List.countP_congr (l := List.range z1'.length)
            (p := (fun t => ((a :: z1').getD t 0 == k1 && (b :: z2').getD t 0 == k2))
              ∘ Nat.succ)
            (q := fun t => (z1'.getD t 0 == k1 && z2'.getD t 0 == k2))
            (fun t _ => by simp [Function.comp])
          rw [hc]
          by_cases h1 : a = k1 <;> by_cases h2 : b = k2 <;> simp [h1, h2]

/-- C5 helper: the sum of all entries counts exactly the in-window
positions. -/
lemma compute_state_overlap_some (z1 z2 : List ℕ) (oK1 oK2 : Option ℕ)
    (hlen : z1.length = z2.length) (hne : z1 ≠ []) :
    compute_state_overlap z1 z2 oK1 oK2
      = some (overlapMatrix (resolveK z1 oK1) (resolveK z2 oK2) (z1.zip z2)) := by
  unfold compute_state_overlap
  rw [if_pos ⟨hlen, hne⟩]

lemma overlapMatrix_length (K1 K2 : ℕ) (l : List (ℕ × ℕ)) :
    (overlapMatrix K1 K2 l).length = K1 := by
  simp [overlapMatrix]

lemma overlapMatrix_row_length (K1 K2 : ℕ) (l : List (ℕ × ℕ)) :
    ∀ row ∈ overlapMatrix K1 K2 l, row.length = K2 := by
  intro row hrow
  rcases List.mem_map.mp hrow with ⟨k1, _, rfl⟩
  simp

lemma totalSum_lt_of_out_of_range (z1 z2 : List ℕ) (K1 K2 : ℕ)
    (hlen : z1.length = z2.length)
    (hout : ∃ i : ℕ, (i < z1.length ∧ K1 ≤ z1.getD i 0)
      ∨ (i < z2.length ∧ K2 ≤ z2.getD i 0)) :
    totalSum (overlapMatrix K1 K2 (z1.zip z2)) < z1.length := by
  rw [totalSum_overlapMatrix]
  have hzlen : (z1.zip z2).length = z1.length := by
    rw [List.length_zip, hlen, Nat.min_self]
  obtain ⟨i, hcase⟩ := hout
  have hizip : i < (z1.zip z2).length := by
    rcases hcase with ⟨hi, _⟩ | ⟨hi, _⟩ <;> omega
  have hi1 : i < z1.length := by omega
  have hi2 : i < z2.length := by omega
  have hg1 : z1.getD i 0 = z1[i] := by
    rw [List.getD_eq_getElem?_getD, List.getElem?_eq_getElem hi1]
    rfl
  have hg2 : z2.getD i 0 = z2[i] := by
    rw [List.getD_eq_getElem?_getD, List.getElem?_eq_getElem hi2]
    rfl
  have hmem : (z1.zip z2)[i] ∈ z1.zip z2 := List.getElem_mem hizip
  have hnot : ¬(z1[i] < K1 ∧ z2[i] < K2) := by
    rcases hcase with ⟨_, hK⟩ | ⟨_, hK⟩ <;> omega
  have hsplit := List.length_eq_countP_add_countP
    (p := fun p : ℕ × ℕ => decide (p.1 < K1) && decide (p.2 < K2)) (z1.zip z2)
  have hpos : 0 < (z1.zip z2).countP
      (fun p : ℕ × ℕ => ¬(decide (p.1 < K1) && decide (p.2 < K2))) := by
    rw [List.countP_pos_iff]
    refine ⟨_, hmem, ?_⟩
    simp only [List.getElem_zip, decide_eq_true_eq, Bool.and_eq_true]
    exact hnot
  omega

/-- C5: for equal-length label sequences whose values all lie below the
(resolved, whether defaulted or supplied) bounds `K1`, `K2`, the entries of
the overlap matrix sum to the common length `T`. -/
theorem compute_state_overlap_total_eq_length (z1 z2 : List ℕ)
    (oK1 oK2 : Option ℕ)
    (hlen : z1.length = z2.length) (hne : z1 ≠ [])
    (h1 : ∀ a ∈ z1, a < resolveK z1 oK1)
    (h2 : ∀ b ∈ z2, b < resolveK z2 oK2) :
    ∃ ov, compute_state_overlap z1 z2 oK1 oK2 = some ov
      ∧ totalSum ov = z1.length := by
  refine ⟨_, compute_state_overlap_some z1 z2 oK1 oK2 hlen hne, ?_⟩
  rw [totalSum_overlapMatrix]
  have hlen' : (z1.zip z2).length = z1.length := by
    rw [List.length_zip, hlen, Nat.min_self]
  rw [← hlen', List.countP_eq_length]
  rintro ⟨a, b⟩ hp
  obtain ⟨hp1, hp2⟩ := List.of_mem_zip hp
  simp only [Bool.and_eq_true, decide_eq_true_eq]
  exact ⟨h1 a hp1, h2 b hp2⟩

/-- C5 witness input. -/
theorem compute_state_overlap_total_eq_length_witness :
    ∃ ov, compute_state_overlap [0, 1, 1, 2] [1, 0, 0, 0] none none = some ov
      ∧ totalSum ov = 4 :=
  compute_state_overlap_total_eq_length [0, 1, 1, 2] [1, 0, 0, 0] none none
    (by decide) (by decide) (by decide) (by decide)

/-- C6: on valid input `compute_state_overlap` returns a
`K1 × K2` matrix whose `(k1, k2)` entry counts the positions `t` with
`z1[t] = k1` and `z2[t] = k2`, where `K1`/`K2` resolve to the supplied
bounds, or default to the maximum label plus one (`listMax` being the
maximum: it is attained and dominates every label). -/
theorem compute_state_overlap_entry_counts (z1 z2 : List ℕ)
    (oK1 oK2 : Option ℕ)
    (hlen : z1.length = z2.length) (hne : z1 ≠ []) :
    ∃ ov, compute_state_overlap z1 z2 oK1 oK2 = some ov
      ∧ ov.length = resolveK z1 oK1
      ∧ (∀ row ∈ ov, row.length = resolveK z2 oK2)
      ∧ (∀ k1 k2 : ℕ, k1 < resolveK z1 oK1 → k2 < resolveK z2 oK2 →
          (ov.getD k1 []).getD k2 0
            = (List.range z1.length).countP
                (fun t => z1.getD t 0 == k1 && z2.getD t 0 == k2))
      ∧ resolveK z1 none = listMax z1 + 1
      ∧ resolveK z2 none = listMax z2 + 1
      ∧ listMax z1 ∈ z1 ∧ (∀ a ∈ z1, a ≤ listMax z1)
      ∧ listMax z2 ∈ z2 ∧ (∀ b ∈ z2, b ≤ listMax z2) := by
  have hne2 : z2 ≠ [] := by
    intro h
    rw [h] at hlen
    exact hne (List.length_eq_zero.mp (by simpa using hlen))
  refine ⟨_, compute_state_overlap_some z1 z2 oK1 oK2 hlen hne,
    overlapMatrix_length _ _ _, overlapMatrix_row_length _ _ _, ?_,
    rfl, rfl, listMax_mem hne, le_listMax, listMax_mem hne2, le_listMax⟩
  intro k1 k2 h1 h2
  rw [overlapMatrix_getD _ h1 h2, overlapEntry_eq_position_count z1 z2 hlen]

/-- C6 witness input. -/
theorem compute_state_overlap_entry_counts_witness :
    ∃ ov, compute_state_overlap [0, 2, 2] [1, 0, 0] none (some 2) = some ov
      ∧ ov.length = resolveK [0, 2, 2] none
      ∧ (∀ row ∈ ov, row.length = resolveK [1, 0, 0] (some 2))
      ∧ (∀ k1 k2 : ℕ, k1 < resolveK [0, 2, 2] none →
          k2 < resolveK [1, 0, 0] (some 2) →
          (ov.getD k1 []).getD k2 0
            = (List.range (3 : ℕ)).countP
                (fun t => [0, 2, 2].getD t 0 == k1 && [1, 0, 0].getD t 0 == k2))
      ∧ resolveK [0, 2, 2] none = listMax [0, 2, 2] + 1
      ∧ resolveK [1, 0, 0] none = listMax [1, 0, 0] + 1
      ∧ listMax [0, 2, 2] ∈ [0, 2, 2]
      ∧ (∀ a ∈ [0, 2, 2], a ≤ listMax [0, 2, 2])
      ∧ listMax [1, 0, 0] ∈ [1, 0, 0]
      ∧ (∀ b ∈ [1, 0, 0], b ≤ listMax [1, 0, 0]) :=
  compute_state_overlap_entry_counts [0, 2, 2] [1, 0, 0] none (some 2)
    (by decide) (by decide)

/-- C10: when a supplied bound does not exceed the corresponding maximum
label, `compute_state_overlap` still succeeds with a `K1 × K2` matrix, but
only the positions whose label pair lies inside the window are counted, so
the entries sum to strictly less than the length; `find_permutation`
(when `K1 ≤ K2`) still returns a result on this truncated matrix. -/
theorem compute_state_overlap_truncates (z1 z2 : List ℕ) (K1 K2 : ℕ)
    (hlen : z1.length = z2.length) (hne : z1 ≠ [])
    (hK : K1 ≤ listMax z1 ∨ K2 ≤ listMax z2) :
    ∃ ov, compute_state_overlap z1 z2 (some K1) (some K2) = some ov
      ∧ ov.length = K1 ∧ (∀ row ∈ ov, row.length = K2)
      ∧ totalSum ov
          = (z1.zip z2).countP
              (fun p => decide (p.1 < K1) && decide (p.2 < K2))
      ∧ totalSum ov < z1.length
      ∧ (K1 ≤ K2 →
          ∃ p, find_permutation z1 z2 (some K1) (some K2) = some p) := by
  have hne2 : z2 ≠ [] := by
    intro h
    rw [h] at hlen
    exact hne (List.length_eq_zero.mp (by simpa using hlen))
  have hsome := compute_state_overlap_some z1 z2 (some K1) (some K2) hlen hne
  refine ⟨_, hsome, overlapMatrix_length _ _ _, overlapMatrix_row_length _ _ _,
    totalSum_overlapMatrix _ _ _, ?_, ?_⟩
  · refine totalSum_lt_of_out_of_range z1 z2 K1 K2 hlen ?_
    rcases hK with h | h
    · obtain ⟨i, hi, hgi⟩ := List.getElem_of_mem (listMax_mem hne)
      refine ⟨i, Or.inl ⟨hi, ?_⟩⟩
      rw [List.getD_eq_getElem?_getD, List.getElem?_eq_getElem hi]
      show K1 ≤ z1[i]
      rw [hgi]
      exact h
    · obtain ⟨i, hi, hgi⟩ := List.getElem_of_mem (listMax_mem hne2)
      refine ⟨i, Or.inr ⟨hi, ?_⟩⟩
      rw [List.getD_eq_getElem?_getD, List.getElem?_eq_getElem hi]
      show K2 ≤ z2[i]
      rw [hgi]
      exact h
  · intro hK12
    unfold find_permutation
    rw [hsome]
    simp only [resolveK]
    rw [if_pos hK12]
    exact ⟨_, rfl⟩

/-- C10 witness input: `K1 = 2` truncates the label `2` of `z1`. -/
theorem compute_state_overlap_truncates_witness :
    ∃ ov, compute_state_overlap [0, 1, 2, 2] [0, 1, 0, 1] (some 2) (some 2)
        = some ov
      ∧ ov.length = 2 ∧ (∀ row ∈ ov, row.length = 2)
      ∧ totalSum ov
          = ([0, 1, 2, 2].zip [0, 1, 0, 1]).countP
              (fun p => decide (p.1 < 2) && decide (p.2 < 2))
      ∧ totalSum ov < 4
      ∧ ((2 : ℕ) ≤ 2 →
          ∃ p, find_permutation [0, 1, 2, 2] [0, 1, 0, 1] (some 2) (some 2)
            = some p) :=
  compute_state_overlap_truncates [0, 1, 2, 2] [0, 1, 0, 1] 2 2
    (by decide) (by decide) (by decide)

/-! ### Lemmas on the injection enumeration and the argmax -/

lemma length_of_mem_allInjections :
    ∀ (n : ℕ) (avail s : List ℕ), s ∈ allInjections n avail → s.length = n := by
  intro n
  induction n with
  | zero => intro avail s hs; simp [allInjections] at hs; simp [hs]
  | succ n ih =>
      intro avail s hs
      simp only [allInjections, List.mem_flatMap, List.mem_map] at hs
      obtain ⟨c, _, rest, hrest, rfl⟩ := hs
      simp [ih _ _ hrest]

lemma subset_of_mem_allInjections :
    ∀ (n : ℕ) (avail s : List ℕ), s ∈ allInjections n avail →
      ∀ c ∈ s, c ∈ avail := by
  intro n
  induction n with
  | zero => intro avail s hs; simp [allInjections] at hs; simp [hs]
  | succ n ih =>
      intro avail s hs
      simp only [allInjections, List.mem_flatMap, List.mem_map] at hs
      obtain ⟨c, hc, rest, hrest, rfl⟩ := hs
      intro x hx
      rcases List.mem_cons.mp hx with rfl | hx
      · exact hc
      · exact List.mem_of_mem_erase (ih _ _ hrest x hx)

lemma nodup_of_mem_allInjections :
    ∀ (n : ℕ) (avail s : List ℕ), avail.Nodup → s ∈ allInjections n avail →
      s.Nodup := by
  intro n
  induction n with
  | zero => intro avail s _ hs; simp [allInjections] at hs; simp [hs]
  | succ n ih =>
      intro avail s hav hs
      simp only [allInjections, List.mem_flatMap, List.mem_map] at hs
      obtain ⟨c, hc, rest, hrest, rfl⟩ := hs
      refine List.nodup_cons.mpr ⟨?_, ih _ _ (hav.erase c) hrest⟩
      intro hmem
      have : c ∈ avail.erase c := subset_of_mem_allInjections _ _ _ hrest c hmem
      exact (List.Nodup.not_mem_erase hav) this

lemma mem_allInjections_of_valid :
    ∀ (n : ℕ) (avail s : List ℕ), s.length = n → s.Nodup →
      (∀ c ∈ s, c ∈ avail) → s ∈ allInjections n avail := by
  intro n
  induction n with
  | zero =>
      intro avail s hlen _ _
      rw [List.length_eq_zero.mp hlen]
      simp [allInjections]
  | succ n ih =>
      intro avail s hlen hnd hsub
      cases s with
      | nil => simp at hlen
      | cons c rest =>
          simp only [allInjections, List.mem_flatMap, List.mem_map]
          refine ⟨c, hsub c (List.mem_cons_self c rest), rest, ?_, rfl⟩
          refine ih _ rest (by simpa using hlen) (List.Nodup.of_cons hnd) ?_
          intro x hx
          refine List.mem_erase_of_ne ?_ |>.mpr (hsub x (List.mem_cons_of_mem c hx))
          rintro rfl
          exact (List.nodup_cons.mp hnd).1 hx

lemma allInjections_head :
    ∀ (n : ℕ) (avail : List ℕ), n ≤ avail.length →
      ∃ rest, allInjections n avail = avail.take n :: rest := by
  intro n
  induction n with
  | zero => intro avail _; exact ⟨[], by simp [allInjections]⟩
  | succ n ih =>
      intro avail hlen
      cases avail with
      | nil => simp at hlen
      | cons a t =>
          obtain ⟨rest, hrest⟩ := ih t (by simpa using hlen)
          refine ⟨rest.map (a :: ·)
            ++ t.flatMap (fun c =>
                (allInjections n ((a :: t).erase c)).map (fun r => c :: r)), ?_⟩
          rw [List.take_succ_cons]
          show (a :: t).flatMap _ = _
          simp only [List.flatMap_cons, List.erase_cons_head, hrest,
            List.map_cons, List.cons_append]

lemma pickBestAux_mem (score : List ℕ → ℕ) :
    ∀ (cs : List (List ℕ)) (best : List ℕ),
      pickBestAux score best cs = best ∨ pickBestAux score best cs ∈ cs := by
  intro cs
  induction cs with
  | nil => intro best; left; rfl
  | cons c cs ih =>
      intro best
      simp only [pickBestAux]
      split_ifs
      · rcases ih c with h | h
        · right; rw [h]; exact List.mem_cons_self c cs
        · right; exact List.mem_cons_of_mem c h
      · rcases ih best with h | h
        · left; exact h
        · right; exact List.mem_cons_of_mem c h

lemma le_pickBestAux (score : List ℕ → ℕ) :
    ∀ (cs : List (List ℕ)) (best : List ℕ) (y : List ℕ),
      (y = best ∨ y ∈ cs) → score y ≤ score (pickBestAux score best cs) := by
  intro cs
  induction cs with
  | nil =>
      intro best y hy
      rcases hy with rfl | hy
      · exact le_refl _
      · cases hy
  | cons c cs ih =>
      intro best y hy
      simp only [pickBestAux]
      split_ifs with hlt
      · rcases hy with hyb | hy
        · rw [hyb]
          exact le_trans (le_of_lt hlt) (ih c c (Or.inl rfl))
        · rcases List.mem_cons.mp hy with hyc | hy
          · rw [hyc]; exact ih c c (Or.inl rfl)
          · exact ih c y (Or.inr hy)
      · rcases hy with hyb | hy
        · rw [hyb]; exact ih best best (Or.inl rfl)
        · rcases List.mem_cons.mp hy with hyc | hy
          · rw [hyc]
            exact le_trans (le_of_not_lt hlt) (ih best best (Or.inl rfl))
          · exact ih best y (Or.inr hy)

lemma pickBestAux_eq_of_le (score : List ℕ → ℕ) :
    ∀ (cs : List (List ℕ)) (best : List ℕ),
      (∀ y ∈ cs, score y ≤ score best) → pickBestAux score best cs = best := by
  intro cs
  induction cs with
  | nil => intro best _; rfl
  | cons c cs ih =>
      intro best h
      simp only [pickBestAux]
      rw [if_neg (not_lt.mpr (h c (List.mem_cons_self c cs)))]
      exact ih best fun y hy => h y (List.mem_cons_of_mem c hy)

lemma pickBest_mem (score : List ℕ → ℕ) (l : List (List ℕ)) (hne : l ≠ []) :
    pickBest score l ∈ l := by
  cases l with
  | nil => exact absurd rfl hne
  | cons x xs =>
      simp only [pickBest]
      rcases pickBestAux_mem score xs x with h | h
      · rw [h]; exact List.mem_cons_self x xs
      · exact List.mem_cons_of_mem x h

lemma le_pickBest (score : List ℕ → ℕ) (l : List (List ℕ)) :
    ∀ y ∈ l, score y ≤ score (pickBest score l) := by
  cases l with
  | nil => intro y hy; cases hy
  | cons x xs =>
      intro y hy
      simp only [pickBest]
      rcases List.mem_cons.mp hy with rfl | hy
      · exact le_pickBestAux score xs y y (Or.inl rfl)
      · exact le_pickBestAux score xs x y (Or.inr hy)

lemma allInjections_ne_nil (n : ℕ) (avail : List ℕ) (h : n ≤ avail.length) :
    allInjections n avail ≠ [] := by
  obtain ⟨rest, hrest⟩ := allInjections_head n avail h
  rw [hrest]
  exact List.cons_ne_nil _ _

/-- Unfolding a successful `find_permutation` run: the input was valid,
`K1 ≤ K2` held, and the result is the solver's assignment followed by the
ascending list of unused columns. -/
lemma find_permutation_inv {z1 z2 : List ℕ} {oK1 oK2 : Option ℕ}
    {p : List ℕ} (h : find_permutation z1 z2 oK1 oK2 = some p) :
    z1.length = z2.length ∧ z1 ≠ []
      ∧ resolveK z1 oK1 ≤ resolveK z2 oK2
      ∧ p = linear_sum_assignment_max
              (overlapMatrix (resolveK z1 oK1) (resolveK z2 oK2) (z1.zip z2))
              (resolveK z1 oK1) (resolveK z2 oK2)
            ++ (List.range (resolveK z2 oK2)).filter
                (fun c => decide (c ∉ linear_sum_assignment_max
                  (overlapMatrix (resolveK z1 oK1) (resolveK z2 oK2)
                    (z1.zip z2))
                  (resolveK z1 oK1) (resolveK z2 oK2))) := by
  by_cases hvalid : z1.length = z2.length ∧ z1 ≠ []
  · obtain ⟨hlen, hne⟩ := hvalid
    have hsome := compute_state_overlap_some z1 z2 oK1 oK2 hlen hne
    unfold find_permutation at h
    rw [hsome] at h
    by_cases hK : resolveK z1 oK1 ≤ resolveK z2 oK2
    · refine ⟨hlen, hne, hK, ?_⟩
      simp only [hK, if_true] at h
      exact (Option.some.inj h).symm
    · simp only [hK, if_false] at h
      cases h
  · have hnone : compute_state_overlap z1 z2 oK1 oK2 = none := by
      unfold compute_state_overlap
      rw [if_neg hvalid]
    unfold find_permutation at h
    rw [hnone] at h
    cases h

/-- C4: on a valid equal-length nonempty pair whose resolved dimensions
satisfy `K1 > K2`, `find_permutation` hits the `K1 <= K2` assert and fails
(returns no result). -/
theorem find_permutation_fails_of_K1_gt_K2 (z1 z2 : List ℕ)
    (oK1 oK2 : Option ℕ)
    (hK : resolveK z2 oK2 < resolveK z1 oK1) :
    find_permutation z1 z2 oK1 oK2 = none := by
  by_cases hvalid : z1.length = z2.length ∧ z1 ≠ []
  · obtain ⟨hlen, hne⟩ := hvalid
    have hsome := compute_state_overlap_some z1 z2 oK1 oK2 hlen hne
    unfold find_permutation
    rw [hsome]
    simp only [not_le.mpr hK, if_false]
  · have hnone : compute_state_overlap z1 z2 oK1 oK2 = none := by
      unfold compute_state_overlap
      rw [if_neg hvalid]
    unfold find_permutation
    rw [hnone]

/-- C4 witness input: three labels against one (`K1 = 3 > 1 = K2`). -/
theorem find_permutation_fails_of_K1_gt_K2_witness :
    find_permutation [0, 1, 2] [0, 0, 0] none none = none :=
  find_permutation_fails_of_K1_gt_K2 [0, 1, 2] [0, 0, 0] none none (by decide)

/-- C2: the first `K1` entries of a successful `find_permutation` result
are an injection of the rows into the columns (pairwise-distinct column
indices below `K2`) whose total overlap dominates that of every such
injection. -/
theorem find_permutation_maximizes (z1 z2 : List ℕ) (oK1 oK2 : Option ℕ)
    (p : List ℕ) (h : find_permutation z1 z2 oK1 oK2 = some p) :
    (p.take (resolveK z1 oK1)).length = resolveK z1 oK1
    ∧ (p.take (resolveK z1 oK1)).Nodup
    ∧ (∀ c ∈ p.take (resolveK z1 oK1), c < resolveK z2 oK2)
    ∧ ∀ q : List ℕ, q.length = resolveK z1 oK1 → q.Nodup →
        (∀ c ∈ q, c < resolveK z2 oK2) →
        permScore
            (overlapMatrix (resolveK z1 oK1) (resolveK z2 oK2) (z1.zip z2))
            0 q
          ≤ permScore
              (overlapMatrix (resolveK z1 oK1) (resolveK z2 oK2) (z1.zip z2))
              0 (p.take (resolveK z1 oK1)) := by
  obtain ⟨hlen, hne, hK, hp⟩ := find_permutation_inv h
  have henum : allInjections (resolveK z1 oK1)
      (List.range (resolveK z2 oK2)) ≠ [] :=
    allInjections_ne_nil _ _ (by simpa using hK)
  have hmem : linear_sum_assignment_max
        (overlapMatrix (resolveK z1 oK1) (resolveK z2 oK2) (z1.zip z2))
        (resolveK z1 oK1) (resolveK z2 oK2)
      ∈ allInjections (resolveK z1 oK1) (List.range (resolveK z2 oK2)) :=
    pickBest_mem _ _ henum
  have hlsalen := length_of_mem_allInjections _ _ _ hmem
  have htake : p.take (resolveK z1 oK1)
      = linear_sum_assignment_max
          (overlapMatrix (resolveK z1 oK1) (resolveK z2 oK2) (z1.zip z2))
          (resolveK z1 oK1) (resolveK z2 oK2) := by
    rw [hp]
    exact List.take_left' hlsalen
  rw [htake]
  refine ⟨hlsalen, nodup_of_mem_allInjections _ _ _ (List.nodup_range _) hmem,
    ?_, ?_⟩
  · intro c hc
    exact List.mem_range.mp (subset_of_mem_allInjections _ _ _ hmem c hc)
  · intro q hqlen hqnd hqlt
    have hq : q ∈ allInjections (resolveK z1 oK1)
        (List.range (resolveK z2 oK2)) :=
      mem_allInjections_of_valid _ _ q hqlen hqnd
        (fun c hc => List.mem_range.mpr (hqlt c hc))
    exact le_pickBest _ _ q hq

/-- C2 witness input. -/
theorem find_permutation_maximizes_witness :
    ([0, 2, 1].take (resolveK [0, 0, 0, 1, 1] (some 2))).length
        = resolveK [0, 0, 0, 1, 1] (some 2)
    ∧ ([0, 2, 1].take (resolveK [0, 0, 0, 1, 1] (some 2))).Nodup
    ∧ (∀ c ∈ [0, 2, 1].take (resolveK [0, 0, 0, 1, 1] (some 2)),
        c < resolveK [0, 1, 2, 2, 2] (some 3))
    ∧ ∀ q : List ℕ, q.length = resolveK [0, 0, 0, 1, 1] (some 2) → q.Nodup →
        (∀ c ∈ q, c < resolveK [0, 1, 2, 2, 2] (some 3)) →
        permScore
            (overlapMatrix (resolveK [0, 0, 0, 1, 1] (some 2))
              (resolveK [0, 1, 2, 2, 2] (some 3))
              ([0, 0, 0, 1, 1].zip [0, 1, 2, 2, 2]))
            0 q
          ≤ permScore
              (overlapMatrix (resolveK [0, 0, 0, 1, 1] (some 2))
                (resolveK [0, 1, 2, 2, 2] (some 3))
                ([0, 0, 0, 1, 1].zip [0, 1, 2, 2, 2]))
              0 ([0, 2, 1].take (resolveK [0, 0, 0, 1, 1] (some 2))) :=
  find_permutation_maximizes [0, 0, 0, 1, 1] [0, 1, 2, 2, 2]
    (some 2) (some 3) [0, 2, 1] (by rfl)

/-- C3: a successful `find_permutation` result has length `K2`, is a
permutation of `range K2` in which every index below `K2` occurs exactly
once, and consists of the `K1` matched columns followed by the remaining
columns in ascending order. -/
theorem find_permutation_is_permutation (z1 z2 : List ℕ)
    (oK1 oK2 : Option ℕ) (p : List ℕ)
    (h : find_permutation z1 z2 oK1 oK2 = some p) :
    p.length = resolveK z2 oK2
    ∧ p.Perm (List.range (resolveK z2 oK2))
    ∧ (∀ k : ℕ, k < resolveK z2 oK2 → p.count k = 1)
    ∧ p = p.take (resolveK z1 oK1)
        ++ (List.range (resolveK z2 oK2)).filter
            (fun c => decide (c ∉ p.take (resolveK z1 oK1))) := by
  obtain ⟨hlen, hne, hK, hp⟩ := find_permutation_inv h
  have henum : allInjections (resolveK z1 oK1)
      (List.range (resolveK z2 oK2)) ≠ [] :=
    allInjections_ne_nil _ _ (by simpa using hK)
  have hmem : linear_sum_assignment_max
        (overlapMatrix (resolveK z1 oK1) (resolveK z2 oK2) (z1.zip z2))
        (resolveK z1 oK1) (resolveK z2 oK2)
      ∈ allInjections (resolveK z1 oK1) (List.range (resolveK z2 oK2)) :=
    pickBest_mem _ _ henum
  have hlsalen := length_of_mem_allInjections _ _ _ hmem
  have hlsand := nodup_of_mem_allInjections _ _ _ (List.nodup_range _) hmem
  have hlsasub := subset_of_mem_allInjections _ _ _ hmem
  have htake : p.take (resolveK z1 oK1)
      = linear_sum_assignment_max
          (overlapMatrix (resolveK z1 oK1) (resolveK z2 oK2) (z1.zip z2))
          (resolveK z1 oK1) (resolveK z2 oK2) := by
    rw [hp]
    exact List.take_left' hlsalen
  have hnodup : p.Nodup := by
    rw [hp, List.nodup_append]
    refine ⟨hlsand, List.Nodup.filter _ (List.nodup_range _), ?_⟩
    intro a ha hafilter
    have := (List.mem_filter.mp hafilter).2
    rw [decide_eq_true_eq] at this
    exact this ha
  have hmemiff : ∀ a : ℕ, a ∈ p ↔ a ∈ List.range (resolveK z2 oK2) := by
    intro a
    constructor
    · intro ha
      rw [hp] at ha
      rcases List.mem_append.mp ha with ha | ha
      · exact hlsasub a ha
      · exact (List.mem_filter.mp ha).1
    · intro ha
      rw [hp]
      by_cases hin : a ∈ linear_sum_assignment_max
          (overlapMatrix (resolveK z1 oK1) (resolveK z2 oK2) (z1.zip z2))
          (resolveK z1 oK1) (resolveK z2 oK2)
      · exact List.mem_append.mpr (Or.inl hin)
      · refine List.mem_append.mpr (Or.inr (List.mem_filter.mpr ⟨ha, ?_⟩))
        rw [decide_eq_true_eq]
        exact hin
  have hperm : p.Perm (List.range (resolveK z2 oK2)) :=
    (List.perm_ext_iff_of_nodup hnodup (List.nodup_range _)).mpr hmemiff
  refine ⟨by rw [hperm.length_eq, List.length_range], hperm, ?_, ?_⟩
  · intro k hk
    rw [hperm.count_eq]
    exact List.count_eq_one_of_mem (List.nodup_range _) (List.mem_range.mpr hk)
  · rw [htake]
    exact hp

/-- C3 witness input (`K1 = 2 < 3 = K2`, one padded column). -/
theorem find_permutation_is_permutation_witness :
    [0, 2, 1].length = resolveK [0, 1, 2, 2, 2] (some 3)
    ∧ List.Perm [0, 2, 1] (List.range (resolveK [0, 1, 2, 2, 2] (some 3)))
    ∧ (∀ k : ℕ, k < resolveK [0, 1, 2, 2, 2] (some 3) →
        List.count k [0, 2, 1] = 1)
    ∧ [0, 2, 1] = [0, 2, 1].take (resolveK [0, 0, 0, 1, 1] (some 2))
        ++ (List.range (resolveK [0, 1, 2, 2, 2] (some 3))).filter
            (fun c =>
              decide (c ∉ [0, 2, 1].take (resolveK [0, 0, 0, 1, 1] (some 2)))) :=
  find_permutation_is_permutation [0, 0, 0, 1, 1] [0, 1, 2, 2, 2]
    (some 2) (some 3) [0, 2, 1] (by rfl)

/-! ### The self-alignment case -/

lemma mem_zip_self : ∀ {z : List ℕ} {p : ℕ × ℕ}, p ∈ z.zip z → p.1 = p.2 := by
  intro z
  induction z with
  | nil => intro p hp; cases hp
  | cons a t ih =>
      intro p hp
      rcases List.mem_cons.mp hp with rfl | hp
      · rfl
      · exact ih hp

/-- Aligning a sequence with itself gives a diagonal overlap matrix (taken
with the out-of-bounds default, off-diagonal reads are all `0`). -/
lemma overlap_self_offdiag (z : List ℕ) (K : ℕ) :
    ∀ k1 k2 : ℕ, k1 ≠ k2 →
      ((overlapMatrix K K (z.zip z)).getD k1 []).getD k2 0 = 0 := by
  intro k1 k2 hne
  by_cases h1 : k1 < K
  · by_cases h2 : k2 < K
    · rw [overlapMatrix_getD _ h1 h2]
      unfold overlapEntry
      rw [List.countP_eq_zero]
      intro p hp
      have hdiag := mem_zip_self hp
      simp only [Bool.and_eq_true, beq_iff_eq]
      rintro ⟨ha, hb⟩
      exact hne (by rw [← ha, ← hb, hdiag])
    · set row := (overlapMatrix K K (z.zip z)).getD k1 [] with hrowdef
      have hlen : row.length = K := by
        rw [hrowdef]
        unfold overlapMatrix
        simp [List.getD_eq_getElem?_getD, List.getElem?_range, h1]
      rw [List.getD_eq_getElem?_getD row, List.getElem?_eq_none (by omega),
        Option.getD_none]
  · have hlen : (overlapMatrix K K (z.zip z)).length = K :=
      overlapMatrix_length _ _ _
    rw [List.getD_eq_getElem?_getD (overlapMatrix K K (z.zip z)) k1 [],
      List.getElem?_eq_none (by omega), Option.getD_none]
    rfl

/-- With a diagonal matrix, the consecutive assignment `i, i+1, …` beats
any assignment starting at row `i`, term by term. -/
lemma permScore_le_range' (ov : List (List ℕ))
    (hdiag : ∀ k1 k2 : ℕ, k1 ≠ k2 → ((ov.getD k1 []).getD k2 0) = 0) :
    ∀ (s : List ℕ) (i : ℕ),
      permScore ov i s ≤ permScore ov i (List.range' i s.length) := by
  intro s
  induction s with
  | nil => intro i; simp [permScore]
  | cons c cs ih =>
      intro i
      rw [List.length_cons, List.range'_succ]
      show (ov.getD i []).getD c 0 + permScore ov (i + 1) cs
        ≤ (ov.getD i []).getD i 0 + permScore ov (i + 1) (List.range' (i + 1) cs.length)
      refine Nat.add_le_add ?_ (ih (i + 1))
      by_cases hc : c = i
      · rw [hc]
      · rw [hdiag i c (fun hic => hc hic.symm)]
        exact Nat.zero_le _

/-- The first assignment the solver model enumerates when `K1 = K2 = K` is
the identity `range K`. -/
lemma allInjections_self_head (K : ℕ) :
    ∃ rest, allInjections K (List.range K) = List.range K :: rest := by
  obtain ⟨rest, hrest⟩ := allInjections_head K (List.range K)
    (le_of_eq (List.length_range K).symm)
  refine ⟨rest, ?_⟩
  rw [hrest]
  congr 1
  exact List.take_of_length_le (le_of_eq (List.length_range K))

/-- C8: aligning a (nonempty) label sequence with itself returns the
identity permutation on `K = max(z) + 1` states. -/
theorem find_permutation_self_identity (z : List ℕ) (hne : z ≠ []) :
    find_permutation z z none none = some (List.range (listMax z + 1)) := by
  have hsome := compute_state_overlap_some z z none none rfl hne
  have hdiag := overlap_self_offdiag z (listMax z + 1)
  obtain ⟨rest, hrest⟩ := allInjections_self_head (listMax z + 1)
  have hlsa : linear_sum_assignment_max
      (overlapMatrix (listMax z + 1) (listMax z + 1) (z.zip z))
      (listMax z + 1) (listMax z + 1) = List.range (listMax z + 1) := by
    unfold linear_sum_assignment_max
    rw [hrest]
    simp only [pickBest]
    refine pickBestAux_eq_of_le _ rest (List.range (listMax z + 1)) ?_
    intro y hy
    have hymem : y ∈ allInjections (listMax z + 1)
        (List.range (listMax z + 1)) := by
      rw [hrest]
      exact List.mem_cons_of_mem _ hy
    have hylen := length_of_mem_allInjections _ _ _ hymem
    calc permScore (overlapMatrix (listMax z + 1) (listMax z + 1) (z.zip z)) 0 y
        ≤ permScore (overlapMatrix (listMax z + 1) (listMax z + 1) (z.zip z))
            0 (List.range' 0 y.length) :=
          permScore_le_range' _ hdiag y 0
      _ = permScore (overlapMatrix (listMax z + 1) (listMax z + 1) (z.zip z))
            0 (List.range (listMax z + 1)) := by
          rw [hylen, ← List.range_eq_range']
  unfold find_permutation
  rw [hsome]
  simp only [resolveK]
  rw [if_pos (le_refl (listMax z + 1))]
  simp only [hlsa]
  have hfilter : (List.range (listMax z + 1)).filter
      (fun c => decide (c ∉ List.range (listMax z + 1))) = [] := by
    rw [List.filter_eq_nil_iff]
    intro a ha
    simp [ha]
  rw [hfilter, List.append_nil]

/-- C8 witness input. -/
theorem find_permutation_self_identity_witness :
    find_permutation [0, 1, 1, 3] [0, 1, 1, 3] none none
      = some (List.range (listMax [0, 1, 1, 3] + 1)) :=
  find_permutation_self_identity [0, 1, 1, 3] (by decide)

/-! ### Random rotation: orthogonality -/

/-- C9 counterexample: at `n = 3`, with `theta = 0` (`cos = 1`, `sin = 0`)
and the orthogonal QR factor `q = 1` (the QR decomposition of the identity),
the returned matrix is `diag(1, 1, 0)`, which is not orthogonal: the code
plants the rotation in a ZERO matrix, not an identity matrix, so every
output for `n > 2` has rank at most 2. -/
theorem random_rotation_not_orthogonal_at_three :
    ((1 : Matrix (Fin 3) (Fin 3) ℚ) * (1 : Matrix (Fin 3) (Fin 3) ℚ).transpose
        = 1)
    ∧ ((1 : ℚ) ^ 2 + (0 : ℚ) ^ 2 = 1)
    ∧ ¬(random_rotation 3 1 0 1 * (random_rotation 3 1 0 1).transpose = 1) := by
  refine ⟨by simp, by norm_num, ?_⟩
  intro h
  have h22 := congrFun (congrFun h (⟨2, by omega⟩ : Fin 3))
    (⟨2, by omega⟩ : Fin 3)
  simp [random_rotation, rotBlock, Matrix.mul_apply, Fin.sum_univ_succ,
    Matrix.one_apply] at h22

/-- C9 amended: at `n = 2` the embedded block is exactly the 2D rotation,
and the result `q · rot · qᵀ` is orthogonal for every unit pair
`(c, s) = (cos θ, sin θ)` and every orthogonal `q`. -/
theorem random_rotation_two_orthogonal (c s : ℚ)
    (q : Matrix (Fin 2) (Fin 2) ℚ)
    (hcs : c ^ 2 + s ^ 2 = 1) (hq : q * q.transpose = 1) :
    random_rotation 2 c s q * (random_rotation 2 c s q).transpose = 1 := by
  have hqtq : q.transpose * q = 1 := Matrix.mul_eq_one_comm.mp hq
  have hrot : rotBlock 2 c s * (rotBlock 2 c s).transpose = 1 := by
    ext i j
    fin_cases i <;> fin_cases j <;>
      simp [rotBlock, Matrix.mul_apply, Fin.sum_univ_succ, Matrix.one_apply] <;>
      ring_nf <;>
      linear_combination hcs
  unfold random_rotation
  rw [Matrix.transpose_mul, Matrix.transpose_mul, Matrix.transpose_transpose]
  have hcontract : ∀ Y : Matrix (Fin 2) (Fin 2) ℚ,
      q.transpose * (q * Y) = Y := by
    intro Y
    rw [← Matrix.mul_assoc, hqtq, Matrix.one_mul]
  calc q * rotBlock 2 c s * q.transpose
        * (q * ((rotBlock 2 c s).transpose * q.transpose))
      = q * (rotBlock 2 c s
          * (q.transpose * (q * ((rotBlock 2 c s).transpose * q.transpose)))) := by
        rw [Matrix.mul_assoc, Matrix.mul_assoc]
    _ = q * (rotBlock 2 c s
          * ((rotBlock 2 c s).transpose * q.transpose)) := by
        rw [hcontract]
    _ = q * q.transpose := by
        rw [← Matrix.mul_assoc (rotBlock 2 c s), hrot, Matrix.one_mul]
    _ = 1 := hq

/-- C9 amended-claim witness input: `cos θ = 3/5`, `sin θ = 4/5`, `q = 1`. -/
theorem random_rotation_two_orthogonal_witness :
    random_rotation 2 (3 / 5) (4 / 5) 1
        * (random_rotation 2 (3 / 5) (4 / 5) 1).transpose = 1 :=
  random_rotation_two_orthogonal (3 / 5) (4 / 5) 1 (by norm_num) (by simp)

/-! ### Adam: the update recurrence and the iteration bound -/

lemma getD_map_zip (f : ℚ × ℚ → ℚ) (l1 l2 : List ℚ) (k : ℕ)
    (h1 : k < l1.length) (h2 : k < l2.length) :
    ((l1.zip l2).map f).getD k 0 = f (l1.getD k 0, l2.getD k 0) := by
  have hz : k < (l1.zip l2).length := by
    rw [List.length_zip]
    omega
  rw [List.getD_eq_getElem?_getD, List.getElem?_map,
    List.getElem?_eq_getElem hz, List.getElem_zip]
  rw [List.getD_eq_getElem?_getD, List.getElem?_eq_getElem h1]
  rw [List.getD_eq_getElem?_getD, List.getElem?_eq_getElem h2]
  rfl

lemma getD_map (f : ℚ → ℚ) (l : List ℚ) (k : ℕ) (h : k < l.length) :
    (l.map f).getD k 0 = f (l.getD k 0) := by
  rw [List.getD_eq_getElem?_getD, List.getElem?_map,
    List.getElem?_eq_getElem h, List.getD_eq_getElem?_getD,
    List.getElem?_eq_getElem h]
  rfl

/-- C7: each iteration of the loop body follows the Adam recurrence
coordinatewise — `m ← (1-b1)·g + b1·m`, `v ← (1-b2)·g² + b2·v`,
`dx = -step·(m/(1-b1^(i+1))) / (sqrt(v/(1-b2^(i+1))) + eps)`,
`x ← x + dx` — at iteration `0` the bias-correction divisors are exactly
`(1-b1)` and `(1-b2)`, and a run starts from zero moment vectors. -/
theorem adam_step_recurrence (cfg : AdamConfig)
    (grad : List ℚ → ℕ → List ℚ) (i num_iters : ℕ) (s : AdamState) (k : ℕ)
    (hg : (grad s.x i).length = s.x.length)
    (hg0 : (grad s.x 0).length = s.x.length)
    (hm : s.m.length = s.x.length) (hv : s.v.length = s.x.length)
    (hk : k < s.x.length) :
    ((adamStep cfg grad i s).1.m.getD k 0
        = (1 - cfg.b1) * (grad s.x i).getD k 0 + cfg.b1 * s.m.getD k 0)
    ∧ ((adamStep cfg grad i s).1.v.getD k 0
        = (1 - cfg.b2) * ((grad s.x i).getD k 0) ^ 2 + cfg.b2 * s.v.getD k 0)
    ∧ ((adamStep cfg grad i s).2.getD k 0
        = -cfg.step_size
            * ((adamStep cfg grad i s).1.m.getD k 0 / (1 - cfg.b1 ^ (i + 1)))
            / (cfg.sqrtFn ((adamStep cfg grad i s).1.v.getD k 0
                / (1 - cfg.b2 ^ (i + 1))) + cfg.eps))
    ∧ ((adamStep cfg grad i s).1.x.getD k 0
        = s.x.getD k 0 + (adamStep cfg grad i s).2.getD k 0)
    ∧ ((adamStep cfg grad 0 s).2.getD k 0
        = -cfg.step_size
            * ((adamStep cfg grad 0 s).1.m.getD k 0 / (1 - cfg.b1))
            / (cfg.sqrtFn ((adamStep cfg grad 0 s).1.v.getD k 0
                / (1 - cfg.b2)) + cfg.eps))
    ∧ (adam_with_convergence_check cfg grad s.x num_iters
        = (adamLoop cfg grad num_iters 0
            ⟨s.x, List.replicate s.x.length 0,
              List.replicate s.x.length 0⟩).x) := by
  have step_eqs : ∀ j : ℕ, (hgj : (grad s.x j).length = s.x.length) →
      ((adamStep cfg grad j s).1.m.getD k 0
          = (1 - cfg.b1) * (grad s.x j).getD k 0 + cfg.b1 * s.m.getD k 0)
      ∧ ((adamStep cfg grad j s).1.v.getD k 0
          = (1 - cfg.b2) * ((grad s.x j).getD k 0) ^ 2 + cfg.b2 * s.v.getD k 0)
      ∧ ((adamStep cfg grad j s).2.getD k 0
          = -cfg.step_size
              * ((adamStep cfg grad j s).1.m.getD k 0 / (1 - cfg.b1 ^ (j + 1)))
              / (cfg.sqrtFn ((adamStep cfg grad j s).1.v.getD k 0
                  / (1 - cfg.b2 ^ (j + 1))) + cfg.eps))
      ∧ ((adamStep cfg grad j s).1.x.getD k 0
          = s.x.getD k 0 + (adamStep cfg grad j s).2.getD k 0) := by
    intro j hgj
    have hkg : k < (grad s.x j).length := by omega
    have hkm : k < s.m.length := by omega
    have hkv : k < s.v.length := by omega
    have hmlen : (((grad s.x j).zip s.m).map
        (fun p => (1 - cfg.b1) * p.1 + cfg.b1 * p.2)).length = s.x.length := by
      rw [List.length_map, List.length_zip]
      omega
    have hvlen : (((grad s.x j).zip s.v).map
        (fun p => (1 - cfg.b2) * p.1 ^ 2 + cfg.b2 * p.2)).length
          = s.x.length := by
      rw [List.length_map, List.length_zip]
      omega
    simp only [adamStep]
    refine ⟨getD_map_zip _ _ _ _ hkg hkm, getD_map_zip _ _ _ _ hkg hkv, ?_, ?_⟩
    · rw [getD_map_zip _ _ _ _
        (by simp only [List.length_map, List.length_zip]; omega)
        (by simp only [List.length_map, List.length_zip]; omega)]
      rw [getD_map _ _ _
        (by simp only [List.length_map, List.length_zip]; omega),
        getD_map _ _ _
        (by simp only [List.length_map, List.length_zip]; omega)]
    · rw [getD_map_zip _ _ _ _ hk
        (by simp only [List.length_map, List.length_zip]; omega)]
  obtain ⟨e1, e2, e3, e4⟩ := step_eqs i hg
  obtain ⟨_, _, e3z, _⟩ := step_eqs 0 hg0
  refine ⟨e1, e2, e3, e4, ?_, rfl⟩
  rw [e3z, pow_one, pow_one]

/-- C7 witness input: one coordinate, gradient `2(x - 5)`, iteration 1. -/
theorem adam_step_recurrence_witness :
    let cfg : AdamConfig :=
      ⟨1 / 1000, 9 / 10, 999 / 1000, 1 / 100000000, 1 / 100, id⟩
    let grad : List ℚ → ℕ → List ℚ := fun x _ => x.map (fun a => 2 * (a - 5))
    let s : AdamState := ⟨[0], [0], [0]⟩
    ((adamStep cfg grad 1 s).1.m.getD 0 0
        = (1 - cfg.b1) * (grad s.x 1).getD 0 0 + cfg.b1 * s.m.getD 0 0)
    ∧ ((adamStep cfg grad 1 s).1.v.getD 0 0
        = (1 - cfg.b2) * ((grad s.x 1).getD 0 0) ^ 2 + cfg.b2 * s.v.getD 0 0)
    ∧ ((adamStep cfg grad 1 s).2.getD 0 0
        = -cfg.step_size
            * ((adamStep cfg grad 1 s).1.m.getD 0 0 / (1 - cfg.b1 ^ (1 + 1)))
            / (cfg.sqrtFn ((adamStep cfg grad 1 s).1.v.getD 0 0
                / (1 - cfg.b2 ^ (1 + 1))) + cfg.eps))
    ∧ ((adamStep cfg grad 1 s).1.x.getD 0 0
        = s.x.getD 0 0 + (adamStep cfg grad 1 s).2.getD 0 0)
    ∧ ((adamStep cfg grad 0 s).2.getD 0 0
        = -cfg.step_size
            * ((adamStep cfg grad 0 s).1.m.getD 0 0 / (1 - cfg.b1))
            / (cfg.sqrtFn ((adamStep cfg grad 0 s).1.v.getD 0 0
                / (1 - cfg.b2)) + cfg.eps))
    ∧ (adam_with_convergence_check cfg grad s.x 3
        = (adamLoop cfg grad 3 0
            ⟨s.x, List.replicate s.x.length 0,
              List.replicate s.x.length 0⟩).x) :=
  adam_step_recurrence
    ⟨1 / 1000, 9 / 10, 999 / 1000, 1 / 100000000, 1 / 100, id⟩
    (fun x _ => x.map (fun a => 2 * (a - 5))) 1 3 ⟨[0], [0], [0]⟩ 0
    (by simp) (by simp) (by simp) (by simp) (by simp)

lemma adamLoopCount_le (cfg : AdamConfig) (grad : List ℚ → ℕ → List ℚ) :
    ∀ (rem i : ℕ) (s : AdamState), adamLoopCount cfg grad rem i s ≤ rem := by
  intro rem
  induction rem with
  | zero => intro i s; exact le_refl 0
  | succ rem ih =>
      intro i s
      simp only [adamLoopCount]
      split_ifs
      · omega
      · have := ih (i + 1) (adamStep cfg grad i s).1
        omega

/-- C1, against the repaired loop bound: a run of the optimizer executes at
most `num_iters` iterations (stopping early exactly when the convergence
check fires).  In the source itself `num_iters` is a free, undefined name
rather than a parameter, so no call can reach the loop at all; the bound is
proved for the loop as specified, with `num_iters` supplied explicitly. -/
theorem adam_iterations_le_num_iters (cfg : AdamConfig)
    (grad : List ℚ → ℕ → List ℚ) (x : List ℚ) (num_iters : ℕ) :
    adamIterCount cfg grad x num_iters ≤ num_iters :=
  adamLoopCount_le cfg grad num_iters 0 _

end SsmUtil
